import Mathlib

/-!
Shallow embedding of the `rust_geometry` planar geometry kernel
(`src/lib.rs`, `src/point.rs`, `src/line.rs`, `src/round.rs`,
`src/convex_hull.rs`) and proofs about it.

`f64` values are modelled as elements of a linear ordered field
(instantiated at `ℚ` for concrete, decidable evaluations and at `ℝ`
for the circle routines, which use `sqrt`, `cos`, `sin` and `acos`).
Rust panics (index out of bounds, `usize` underflow) are modelled by
`Option`-valued functions returning `none` exactly where the Rust
code aborts.
-/

namespace RustGeometry

variable {α : Type} [LinearOrderedField α]

/-- Embeds `pub const EPS: f64 = 1e-9;` from `src/lib.rs`. -/
def EPS (α : Type) [LinearOrderedField α] : α := 1 / 10 ^ 9

/-- Embeds `pub fn eq_f64(a: f64, b: f64) -> bool { (a - b).abs() < EPS }`. -/
def eq_f64 (a b : α) : Bool := decide (|a - b| < EPS α)

/-- Embeds `pub struct Point { pub x: f64, pub y: f64 }` from `src/point.rs`. -/
structure Point (α : Type) where
  x : α
  y : α
deriving DecidableEq

/-- Embeds `impl Add for Point`. -/
def Point.add (p q : Point α) : Point α := ⟨p.x + q.x, p.y + q.y⟩

instance : Add (Point α) := ⟨Point.add⟩

/-- Embeds `impl Sub for Point`. -/
def Point.sub (p q : Point α) : Point α := ⟨p.x - q.x, p.y - q.y⟩

instance : Sub (Point α) := ⟨Point.sub⟩

/-- Embeds `impl Neg for Point`. -/
def Point.neg (p : Point α) : Point α := ⟨-p.x, -p.y⟩

instance : Neg (Point α) := ⟨Point.neg⟩

/-- Embeds `impl Mul<f64> for Point` (vector times scalar). -/
def Point.smul (p : Point α) (a : α) : Point α := ⟨p.x * a, p.y * a⟩

/-- Embeds `impl Mul for Point` (dot product). -/
def Point.dot (p q : Point α) : α := p.x * q.x + p.y * q.y

/-- Embeds `impl Div<f64> for Point`. -/
def Point.sdiv (p : Point α) (a : α) : Point α := ⟨p.x / a, p.y / a⟩

/-- Embeds `impl BitXor for Point` (2D cross product `x1*y2 - y1*x2`). -/
def Point.cross (p q : Point α) : α := p.x * q.y - p.y * q.x

/-- Embeds `impl PartialEq for Point`: `eq_f64(x,x') && eq_f64(y,y')`. -/
def Point.peq (p q : Point α) : Bool := eq_f64 p.x q.x && eq_f64 p.y q.y

/-- Embeds `Point::sqrdis` (squared magnitude). -/
def Point.sqrdis (p : Point α) : α := p.dot p

/-- Embeds `Point::dis` (`((*self) * (*self)).sqrt()`), `ℝ` only. -/
noncomputable def Point.dis (p : Point ℝ) : ℝ := Real.sqrt p.sqrdis

/-- Embeds `Point::rot` (counter-clockwise rotation by `theta` radians). -/
noncomputable def Point.rot (p : Point ℝ) (theta : ℝ) : Point ℝ :=
  ⟨p.x * Real.cos theta - p.y * Real.sin theta,
   p.x * Real.sin theta + p.y * Real.cos theta⟩

/-- Modelled from the spec: `Point::normalize` (the unit vector, spec section
4.1) is called by `src/round.rs` but is absent from `src/point.rs`; modelled
as the vector divided by its magnitude. -/
noncomputable def Point.normalize (p : Point ℝ) : Point ℝ := p.sdiv p.dis

/-- Embeds `pub struct Line { pub a: Point, pub b: Point }` from `src/line.rs`. -/
structure Line (α : Type) where
  a : Point α
  b : Point α
deriving DecidableEq

/-- Embeds `Line::vec` (`self.b - self.a`). -/
def Line.vec (l : Line α) : Point α := l.b - l.a

/-- Embeds `Line::sqrlen` (`self.vec().sqrdis()`). -/
def Line.sqrlen (l : Line α) : α := l.vec.sqrdis

/-- Embeds `Line::len` (`self.vec().dis()`), `ℝ` only. -/
noncomputable def Line.len (l : Line ℝ) : ℝ := l.vec.dis

/-- Embeds `Line::valid` (`!eq_f64(self.vec().dis(), 0.0)`), `ℝ` only. -/
noncomputable def Line.valid (l : Line ℝ) : Bool := !(eq_f64 l.vec.dis 0)

/-- Embeds `Line::proj`:
`self.a + self.vec() * (((p - self.a) * self.vec()) / self.sqrlen())`.
Note the Rust code divides by `sqrlen` unconditionally, without a `valid`
guard. -/
def Line.proj (l : Line α) (p : Point α) : Point α :=
  l.a + l.vec.smul (((p - l.a).dot l.vec) / l.sqrlen)

/-- Embeds `Line::inter`: `None` when the direction cross product is within
`EPS` of zero, otherwise the signed-area-ratio point. -/
def Line.inter (l : Line α) (m : Line α) : Option (Point α) :=
  if eq_f64 (l.vec.cross m.vec) 0 then none
  else
    let s1 := (m.a - l.a).cross (m.b - l.a)
    let s2 := (m.b - l.b).cross (m.a - l.b)
    some (l.a + l.vec.smul (s1 / (s1 + s2)))

/-- Embeds `pub struct ConvexHull { pub u_hull: Vec<Point>, pub d_hull: Vec<Point> }`. -/
structure ConvexHull (α : Type) where
  u_hull : List (Point α)
  d_hull : List (Point α)
deriving DecidableEq

/-- Embeds `ConvexHull::new`. -/
def ConvexHull.new (u_hull d_hull : List (Point α)) : ConvexHull α :=
  ⟨u_hull, d_hull⟩

/-- Embeds `ConvexHull::pt_cmp`: compare `x` with `EPS` tolerance, then `y`. -/
def ConvexHull.pt_cmp (a b : Point α) : Ordering :=
  if !(eq_f64 a.x b.x) then (if a.x < b.x then .lt else .gt)
  else if !(eq_f64 a.y b.y) then (if a.y < b.y then .lt else .gt)
  else .eq

/-- Helper for modelling `pts.sort_by(pt_cmp)`: inserts `x` into the reversed
already-sorted prefix (head = rightmost element), moving `x` left past the
elements that compare `Greater` to it — exactly the shifting step of the
stable insertion sort Rust's `slice::sort_by` performs on short slices. -/
def rinsert (cmp : Point α → Point α → Ordering) (x : Point α) :
    List (Point α) → List (Point α)
  | [] => [x]
  | y :: ys => if cmp y x = .gt then y :: rinsert cmp x ys else x :: y :: ys

/-- Models `pts.sort_by(|a, b| Self::pt_cmp(a, b))`: Rust's stable sort,
realised as the stable insertion sort it uses on short slices (it agrees
with every stable sort whenever the comparator is consistent). -/
def sortPts (cmp : Point α → Point α → Ordering) (l : List (Point α)) :
    List (Point α) :=
  (l.foldl (fun acc x => rinsert cmp x acc) []).reverse

/-- Embeds the upper-hull pop loop of `get_convex_hull`: with the stack held
head-first (head = top of the Rust `Vec`), pop while the stack has two
elements `b` (top) and `a` below and
`(u[cnt-1] - u[cnt-2]) ^ (p - u[cnt-2]) > -EPS`. -/
def uPop (p : Point α) : List (Point α) → List (Point α)
  | b :: a :: rest =>
    if -(EPS α) < (b - a).cross (p - a) then uPop p (a :: rest) else b :: a :: rest
  | st => st

/-- Embeds the lower-hull pop loop of `get_convex_hull`: pop while
`(d[cnt-1] - d[cnt-2]) ^ (p - d[cnt-2]) < EPS`. -/
def dPop (p : Point α) : List (Point α) → List (Point α)
  | b :: a :: rest =>
    if (b - a).cross (p - a) < EPS α then dPop p (a :: rest) else b :: a :: rest
  | st => st

/-- Embeds one iteration of the sweep loop of `get_convex_hull`: run both pop
loops for the incoming point `p`, then push `p` on both stacks. -/
def hullStep (st : List (Point α) × List (Point α)) (p : Point α) :
    List (Point α) × List (Point α) :=
  (p :: uPop p st.1, p :: dPop p st.2)

/-- Embeds `ConvexHull::get_convex_hull`: sort with `pt_cmp`, sweep once
building the two stacks. The stacks are held head-first, so the final
`Vec` contents are their reversals. -/
def ConvexHull.get_convex_hull (pts : List (Point α)) : ConvexHull α :=
  let sorted := sortPts ConvexHull.pt_cmp pts
  let st := sorted.foldl hullStep ([], [])
  ⟨st.1.reverse, st.2.reverse⟩

/-- Embeds the upper-chain loop of `ConvexHull::valid`: the check passes when
every consecutive triple satisfies
`(u[i+1] - u[i]) ^ (u[i+2] - u[i]) <= -EPS` (the code returns `false` on
`> -EPS`). -/
def uChainOk : List (Point α) → Bool
  | a :: b :: c :: rest =>
    decide ((b - a).cross (c - a) ≤ -(EPS α)) && uChainOk (b :: c :: rest)
  | _ => true

/-- Embeds the lower-chain loop of `ConvexHull::valid`: every consecutive
triple must satisfy `(d[i+1] - d[i]) ^ (d[i+2] - d[i]) >= EPS` (the code
returns `false` on `< EPS`). -/
def dChainOk : List (Point α) → Bool
  | a :: b :: c :: rest =>
    decide (EPS α ≤ (b - a).cross (c - a)) && dChainOk (b :: c :: rest)
  | _ => true

/-- Embeds `ConvexHull::valid`, with `none` exactly where the Rust code
panics: indexing `u_hull[0]`/`d_hull[0]` of an empty vector, and the loop
bound `ulen - 2` (resp. `dlen - 2`) when a chain has fewer than 2 points
(a `usize` underflow panic in debug, an out-of-bounds index in release).
The endpoint comparisons use the `EPS`-tolerant `PartialEq` and return
`false` before the loops can panic, as in the source. -/
def ConvexHull.valid? (h : ConvexHull α) : Option Bool :=
  match h.u_hull, h.d_hull with
  | [], _ => none
  | _, [] => none
  | u0 :: utl, d0 :: dtl =>
    if !(u0.peq d0) then some false
    else if !(((u0 :: utl).getLastD u0).peq ((d0 :: dtl).getLastD d0)) then some false
    else if utl.length < 1 then none
    else if !(uChainOk (u0 :: utl)) then some false
    else if dtl.length < 1 then none
    else some (dChainOk (d0 :: dtl))

/-- Embeds the fan-triangulation sum of `ConvexHull::area`: given the chain
tail `[u1, u2, ...]` and apex `o = u[0]`, sums
`(u[i+1] - u[0]) ^ (u[i] - u[0])` for `i` in `1 .. len - 1`. -/
def triSum (o : Point α) : List (Point α) → α
  | p :: q :: rest => (q - o).cross (p - o) + triSum o (q :: rest)
  | _ => 0

/-- Embeds `ConvexHull::area`, with `none` exactly where the Rust code
panics: the loop bound `ulen - 1` (resp. `dlen - 1`) when a chain is empty
(`usize` underflow in debug, out-of-bounds indexing in release). -/
def ConvexHull.area? (h : ConvexHull α) : Option α :=
  match h.u_hull, h.d_hull with
  | u0 :: utl, d0 :: dtl => some ((triSum u0 utl - triSum d0 dtl) / 2)
  | _, _ => none

/-- Embeds `ConvexHull::get_points`: reverse a copy of `u_hull`, `pop` its
last element (the original first), `pop` the last element of a copy of
`d_hull`, and concatenate. `Vec::pop` on an empty vector is a no-op, matching
`List.dropLast`. -/
def ConvexHull.get_points (h : ConvexHull α) : List (Point α) :=
  h.d_hull.dropLast ++ h.u_hull.reverse.dropLast

/-- Embeds `pub struct Round { pub o: Point, pub r: f64 }` from `src/round.rs`
(`ℝ` only: the circle routines use `sqrt`, `acos` and rotation). -/
structure Round where
  o : Point ℝ
  r : ℝ

/-- Embeds `Round::new`. -/
def Round.new (o : Point ℝ) (r : ℝ) : Round := ⟨o, r⟩

/-- Embeds `Round::inter_round` from `src/round.rs`: coincident centers give
`None`; `eq_f64(d, |r1-r2|)` gives the doubled internal tangency point (from
the larger circle's center); `eq_f64(d, r1+r2)` gives the doubled external
tangency point; `d < |r1-r2|` or `d > r1+r2` gives `None`; otherwise the two
points obtained by rotating the scaled unit center-to-center vector by
`±acos((r1² + d² - r2²)/(2·r1·d))`. -/
noncomputable def Round.inter_round (c : Round) (rd : Round) :
    Option (Point ℝ × Point ℝ) :=
  if c.o.peq rd.o then none
  else
    let odis := (c.o - rd.o).dis
    if eq_f64 odis |c.r - rd.r| then
      let ans := if c.r > rd.r then c.o + ((rd.o - c.o).normalize.smul c.r)
                 else rd.o + ((c.o - rd.o).normalize.smul rd.r)
      some (ans, ans)
    else if eq_f64 odis (c.r + rd.r) then
      let ans := c.o + ((rd.o - c.o).normalize.smul c.r)
      some (ans, ans)
    else if odis < |c.r - rd.r| ∨ c.r + rd.r < odis then none
    else
      let theta := Real.arccos ((c.r * c.r + odis * odis - rd.r * rd.r) /
        (2 * c.r * odis))
      some (c.o + (((rd.o - c.o).normalize.smul c.r).rot theta),
            c.o + (((rd.o - c.o).normalize.smul c.r).rot (-theta)))

/-! Helper definitions used by the hull proofs: a pop loop and stack build
parametrised by the pop decision, and a predicate stating that every three
consecutive points of a chain satisfy a turn predicate `T`. `uPop`/`dPop`
are instances of `gpop`, and the sweep loop is an instance of `gbuild`. -/

/-- Generic pop loop: pop the stack top `b` (with `a` below it) while
`bad a b p` holds. -/
def gpop (bad : Point α → Point α → Point α → Bool) (p : Point α) :
    List (Point α) → List (Point α)
  | b :: a :: rest =>
    if bad a b p then gpop bad p (a :: rest) else b :: a :: rest
  | st => st

/-- Generic sweep: fold the points into the stack, popping then pushing. -/
def gbuild (bad : Point α → Point α → Point α → Bool) :
    List (Point α) → List (Point α) → List (Point α)
  | st, [] => st
  | st, p :: ps => gbuild bad (p :: gpop bad p st) ps

/-- Every three consecutive elements of the list satisfy `T`. -/
def good3 (T : Point α → Point α → Point α → Prop) : List (Point α) → Prop
  | a :: b :: c :: rest => T a b c ∧ good3 T (b :: c :: rest)
  | _ => True

/-- The pop decision of the upper-hull loop, as a `Bool` function. -/
def uBad (a b p : Point α) : Bool := decide (-(EPS α) < (b - a).cross (p - a))

/-- The pop decision of the lower-hull loop, as a `Bool` function. -/
def dBad (a b p : Point α) : Bool := decide ((b - a).cross (p - a) < EPS α)

/-- The strict-clockwise turn predicate checked by `valid` on `u_hull`. -/
def Tu (a b c : Point α) : Prop := (b - a).cross (c - a) ≤ -(EPS α)

/-- The strict-counter-clockwise turn predicate checked by `valid` on
`d_hull`. -/
def Td (a b c : Point α) : Prop := EPS α ≤ (b - a).cross (c - a)

/-! Basic coordinate lemmas for the point algebra. -/

@[simp] theorem Point.add_x (p q : Point α) : (p + q).x = p.x + q.x := rfl

@[simp] theorem Point.add_y (p q : Point α) : (p + q).y = p.y + q.y := rfl

@[simp] theorem Point.sub_x (p q : Point α) : (p - q).x = p.x - q.x := rfl

@[simp] theorem Point.sub_y (p q : Point α) : (p - q).y = p.y - q.y := rfl

@[simp] theorem Point.neg_x (p : Point α) : (-p).x = -p.x := rfl

@[simp] theorem Point.neg_y (p : Point α) : (-p).y = -p.y := rfl

@[simp] theorem Point.smul_x (p : Point α) (a : α) : (p.smul a).x = p.x * a := rfl

@[simp] theorem Point.smul_y (p : Point α) (a : α) : (p.smul a).y = p.y * a := rfl

@[simp] theorem Point.sdiv_x (p : Point α) (a : α) : (p.sdiv a).x = p.x / a := rfl

@[simp] theorem Point.sdiv_y (p : Point α) (a : α) : (p.sdiv a).y = p.y / a := rfl

theorem Point.add_def (p q : Point α) : p + q = ⟨p.x + q.x, p.y + q.y⟩ := rfl

theorem Point.sub_def (p q : Point α) : p - q = ⟨p.x - q.x, p.y - q.y⟩ := rfl

theorem Point.neg_def (p : Point α) : -p = ⟨-p.x, -p.y⟩ := rfl

theorem Point.cross_def (p q : Point α) : p.cross q = p.x * q.y - p.y * q.x := rfl

theorem Point.dot_def (p q : Point α) : p.dot q = p.x * q.x + p.y * q.y := rfl

theorem EPS_pos : (0 : α) < EPS α := by
  unfold EPS
  positivity

theorem eq_f64_refl (a : α) : eq_f64 a a = true := by
  simp only [eq_f64, decide_eq_true_eq, sub_self, abs_zero]
  exact EPS_pos

theorem eq_f64_comm (a b : α) : eq_f64 a b = eq_f64 b a := by
  simp only [eq_f64, abs_sub_comm]

theorem eq_f64_false_ne {a b : α} (h : eq_f64 a b = false) : a ≠ b := by
  intro hab
  simp [eq_f64, hab, EPS_pos] at h

theorem Point.peq_refl (p : Point α) : p.peq p = true := by
  simp [Point.peq, eq_f64_refl]

theorem Point.peq_comm (p q : Point α) : p.peq q = q.peq p := by
  simp [Point.peq, eq_f64_comm p.x q.x, eq_f64_comm p.y q.y]

theorem Point.eq_of_coords {p q : Point α} (hx : p.x = q.x) (hy : p.y = q.y) :
    p = q := by
  cases p
  cases q
  simp_all

theorem Point.dis_eq (p : Point ℝ) : p.dis = Real.sqrt (p.x ^ 2 + p.y ^ 2) := by
  unfold Point.dis Point.sqrdis Point.dot
  congr 1
  ring

theorem Point.dis_nonneg (p : Point ℝ) : 0 ≤ p.dis := Real.sqrt_nonneg _

theorem Point.abs_x_le_dis (p : Point ℝ) : |p.x| ≤ p.dis := by
  rw [Point.dis_eq, ← Real.sqrt_sq_eq_abs]
  exact Real.sqrt_le_sqrt (by nlinarith [sq_nonneg p.y])

theorem Point.abs_y_le_dis (p : Point ℝ) : |p.y| ≤ p.dis := by
  rw [Point.dis_eq, ← Real.sqrt_sq_eq_abs]
  exact Real.sqrt_le_sqrt (by nlinarith [sq_nonneg p.x])

theorem Point.dis_smul (p : Point ℝ) (k : ℝ) : (p.smul k).dis = |k| * p.dis := by
  rw [Point.dis_eq, Point.dis_eq]
  simp only [Point.smul]
  rw [show (p.x * k) ^ 2 + (p.y * k) ^ 2 = k ^ 2 * (p.x ^ 2 + p.y ^ 2) by ring,
    Real.sqrt_mul (sq_nonneg k), Real.sqrt_sq_eq_abs]

theorem Point.sdiv_eq_smul (p : Point ℝ) (a : ℝ) : p.sdiv a = p.smul a⁻¹ := by
  refine Point.eq_of_coords ?_ ?_ <;> simp [Point.sdiv, Point.smul, div_eq_mul_inv]

theorem Point.dis_normalize (p : Point ℝ) (h : 0 < p.dis) :
    p.normalize.dis = 1 := by
  unfold Point.normalize
  rw [Point.sdiv_eq_smul, Point.dis_smul, abs_inv, abs_of_pos h,
    inv_mul_cancel₀ (ne_of_gt h)]

theorem peq_false_eps_le_dis (p q : Point ℝ) (h : p.peq q = false) :
    EPS ℝ ≤ (p - q).dis := by
  simp only [Point.peq, eq_f64, Bool.and_eq_false_iff, decide_eq_false_iff_not,
    not_lt] at h
  rcases h with h | h
  · refine le_trans ?_ (Point.abs_x_le_dis (p - q))
    simpa [Point.sub_x] using h
  · refine le_trans ?_ (Point.abs_y_le_dis (p - q))
    simpa [Point.sub_y] using h

theorem dis_sub_comm (p q : Point ℝ) : (p - q).dis = (q - p).dis := by
  rw [Point.dis_eq, Point.dis_eq]
  simp only [Point.sub_x, Point.sub_y]
  congr 1
  ring

theorem Point.add_sub_cancel_left (o w : Point α) : o + w - o = w := by
  refine Point.eq_of_coords ?_ ?_
  · simp only [Point.sub_x, Point.add_x]
    ring
  · simp only [Point.sub_y, Point.add_y]
    ring

theorem pt_cmp_refl (a : Point α) : ConvexHull.pt_cmp a a = Ordering.eq := by
  simp [ConvexHull.pt_cmp, eq_f64_refl]

theorem pt_cmp_swap (a b : Point α) :
    ConvexHull.pt_cmp a b = (ConvexHull.pt_cmp b a).swap := by
  unfold ConvexHull.pt_cmp
  rw [eq_f64_comm b.x a.x, eq_f64_comm b.y a.y]
  by_cases hx : eq_f64 a.x b.x
  · by_cases hy : eq_f64 a.y b.y
    · simp [hx, hy, Ordering.swap]
    · rcases lt_trichotomy a.y b.y with h | h | h
      · simp [hx, hy, h, asymm h, Ordering.swap]
      · exact absurd h (eq_f64_false_ne (Bool.not_eq_true _ ▸ hy))
      · simp [hx, hy, h, asymm h, not_lt_of_gt h, Ordering.swap]
  · rcases lt_trichotomy a.x b.x with h | h | h
    · simp [hx, h, asymm h, Ordering.swap]
    · exact absurd h (eq_f64_false_ne (Bool.not_eq_true _ ▸ hx))
    · simp [hx, h, asymm h, not_lt_of_gt h, Ordering.swap]

theorem ord_lt_eq_gt_false : (Ordering.lt = Ordering.gt) = False := by simp

theorem ord_eq_eq_gt_false : (Ordering.eq = Ordering.gt) = False := by simp

/-! Claim theorems for the epsilon comparator and point equality. -/

/-- C2 counterexample: the comparator is not transitive. The points
`(0,0)`, `(9e-10, 0)`, `(18e-10, 0)` compare `Equal`, `Equal`, yet `Less`:
a transitive total order would force the third comparison to be `Equal`. -/
theorem pt_cmp_not_transitive_cex :
    ConvexHull.pt_cmp (⟨0, 0⟩ : Point ℚ) ⟨9/10^10, 0⟩ = Ordering.eq ∧
    ConvexHull.pt_cmp (⟨9/10^10, 0⟩ : Point ℚ) ⟨18/10^10, 0⟩ = Ordering.eq ∧
    ConvexHull.pt_cmp (⟨0, 0⟩ : Point ℚ) ⟨18/10^10, 0⟩ = Ordering.lt := by
  refine ⟨?_, ?_, ?_⟩ <;> norm_num [ConvexHull.pt_cmp, eq_f64, EPS, abs_lt, le_abs]

/-- C2 (amended): `pt_cmp` is reflexive-as-Equal, antisymmetric and total
(each comparison is the `swap` of the reversed comparison, so exactly one of
`a < b`, `a = b`, `b < a` is reported, deterministically), but it is not
transitive: `Equal`-chains of points within `EPS` of their neighbours can end
`Less` apart. -/
theorem pt_cmp_refl_antisymm_total_not_transitive :
    (∀ (β : Type) [LinearOrderedField β] (a : Point β),
      ConvexHull.pt_cmp a a = Ordering.eq) ∧
    (∀ (β : Type) [LinearOrderedField β] (a b : Point β),
      ConvexHull.pt_cmp a b = (ConvexHull.pt_cmp b a).swap) ∧
    (∃ a b c : Point ℚ, ConvexHull.pt_cmp a b = Ordering.eq ∧
      ConvexHull.pt_cmp b c = Ordering.eq ∧
      ConvexHull.pt_cmp a c = Ordering.lt) := by
  refine ⟨fun β _ a => pt_cmp_refl a, fun β _ a b => pt_cmp_swap a b,
    ⟨⟨0, 0⟩, ⟨9/10^10, 0⟩, ⟨18/10^10, 0⟩, ?_, ?_, ?_⟩⟩ <;>
    norm_num [ConvexHull.pt_cmp, eq_f64, EPS, abs_lt, le_abs]

/-- C8: `EPS`-tolerant point equality is reflexive and symmetric, and the
concrete chain `(0,0)`, `(9e-10, 0)`, `(18e-10, 0)` witnesses its
non-transitivity, exactly as the claim states. -/
theorem point_peq_refl_symm_not_trans :
    (∀ (β : Type) [LinearOrderedField β] (p : Point β), p.peq p = true) ∧
    (∀ (β : Type) [LinearOrderedField β] (p q : Point β), p.peq q = q.peq p) ∧
    (Point.peq (⟨0, 0⟩ : Point ℚ) ⟨9/10^10, 0⟩ = true ∧
     Point.peq (⟨9/10^10, 0⟩ : Point ℚ) ⟨18/10^10, 0⟩ = true ∧
     Point.peq (⟨0, 0⟩ : Point ℚ) ⟨18/10^10, 0⟩ = false) := by
  refine ⟨fun β _ p => p.peq_refl, fun β _ p q => p.peq_comm q, ?_, ?_, ?_⟩ <;>
    norm_num [Point.peq, eq_f64, EPS, abs_lt, le_abs]

/-! Claim theorems for `Line`. -/

/-- C6: `inter` returns `None` exactly when the cross product of the two
direction vectors is within `EPS` of zero (parallel-distinct and coincident
lines alike); otherwise it returns the signed-area-ratio point
`a + vec * (s1 / (s1 + s2))`. The two concrete scenarios from the spec are
evaluated: the diagonals of the unit square meet at `(0.5, 0.5)`, and two
parallel vertical lines give `None`. -/
theorem line_inter_eps_iff_and_ratio :
    (∀ (β : Type) [LinearOrderedField β] (l m : Line β),
      l.inter m = none ↔ |l.vec.cross m.vec| < EPS β) ∧
    (∀ (β : Type) [LinearOrderedField β] (l m : Line β),
      EPS β ≤ |l.vec.cross m.vec| →
      l.inter m = some (l.a + l.vec.smul (((m.a - l.a).cross (m.b - l.a)) /
        (((m.a - l.a).cross (m.b - l.a)) + ((m.b - l.b).cross (m.a - l.b)))))) ∧
    Line.inter (⟨⟨0, 0⟩, ⟨1, 1⟩⟩ : Line ℚ) ⟨⟨1, 0⟩, ⟨0, 1⟩⟩ = some ⟨1/2, 1/2⟩ ∧
    Line.inter (⟨⟨0, 0⟩, ⟨0, 1⟩⟩ : Line ℚ) ⟨⟨1, 0⟩, ⟨1, 1⟩⟩ = none := by
  have hiff : ∀ (β : Type) [LinearOrderedField β] (l m : Line β),
      l.inter m = none ↔ |l.vec.cross m.vec| < EPS β := by
    intro β _ l m
    unfold Line.inter
    split
    · next h =>
      simp only [eq_f64, decide_eq_true_eq, sub_zero] at h
      simpa using h
    · next h =>
      simp only [eq_f64, decide_eq_false_iff_not, sub_zero] at h
      simpa using h
  refine ⟨hiff, ?_, ?_, ?_⟩
  · intro β _ l m h
    unfold Line.inter
    split
    · next hc =>
      simp only [eq_f64, decide_eq_true_eq, sub_zero] at hc
      exact absurd hc (not_lt_of_ge h)
    · rfl
  · norm_num [Line.inter, Line.vec, eq_f64, EPS, Point.cross, Point.smul,
      Point.add_def, Point.sub_def, Point.mk.injEq, abs_lt, le_abs]
  · norm_num [Line.inter, Line.vec, eq_f64, EPS, Point.cross, abs_lt]

/-- Witness for the hypothesis-bearing conjunct of the C6 theorem,
instantiated at the crossing diagonal lines. -/
theorem line_inter_eps_iff_and_ratio_witness :
    Line.inter (⟨⟨0, 0⟩, ⟨1, 1⟩⟩ : Line ℚ) ⟨⟨1, 0⟩, ⟨0, 1⟩⟩ =
      some ((⟨0, 0⟩ : Point ℚ) +
        (Line.vec ⟨⟨0, 0⟩, ⟨1, 1⟩⟩).smul
          ((((⟨1, 0⟩ : Point ℚ) - ⟨0, 0⟩).cross ((⟨0, 1⟩ : Point ℚ) - ⟨0, 0⟩)) /
            ((((⟨1, 0⟩ : Point ℚ) - ⟨0, 0⟩).cross ((⟨0, 1⟩ : Point ℚ) - ⟨0, 0⟩)) +
              (((⟨0, 1⟩ : Point ℚ) - ⟨1, 1⟩).cross ((⟨1, 0⟩ : Point ℚ) - ⟨1, 1⟩))))) :=
  line_inter_eps_iff_and_ratio.2.1 ℚ ⟨⟨0, 0⟩, ⟨1, 1⟩⟩ ⟨⟨1, 0⟩, ⟨0, 1⟩⟩
    (by norm_num [Line.vec, Point.cross, EPS, le_abs])

/-- C5: evaluation of `proj` at the degenerate line `Line((0,0),(0,0))`,
which fails `valid()`: the code still returns a plain point (it divides by
`sqrlen = 0` unconditionally; in `f64` this is NaN propagation, in the exact
model division by zero yields `a`), signalling no failure of any kind,
contrary to the specified contract. -/
theorem proj_on_invalid_line_returns_point :
    Line.valid (⟨⟨0, 0⟩, ⟨0, 0⟩⟩ : Line ℝ) = false ∧
    Line.proj (⟨⟨0, 0⟩, ⟨0, 0⟩⟩ : Line ℝ) ⟨1, 0⟩ = ⟨0, 0⟩ := by
  constructor
  · simp [Line.valid, Line.vec, Point.dis, Point.sqrdis, Point.dot, Point.sub,
      eq_f64, EPS_pos, Real.sqrt_eq_zero']
  · norm_num [Line.proj, Line.vec, Line.sqrlen, Point.sqrdis, Point.dot,
      Point.sub_def, Point.smul, Point.add_def, Point.mk.injEq]

/-! Lemmas about the pop loops and the sweep. -/

theorem uPop_eq_gpop (p : Point α) : ∀ st, uPop p st = gpop uBad p st := by
  intro st
  induction st with
  | nil => rfl
  | cons b st' ih =>
    cases st' with
    | nil => rfl
    | cons a rest =>
      rw [uPop, gpop]
      by_cases h : -(EPS α) < (b - a).cross (p - a)
      · simp [uBad, h, ih]
      · simp [uBad, h]

theorem dPop_eq_gpop (p : Point α) : ∀ st, dPop p st = gpop dBad p st := by
  intro st
  induction st with
  | nil => rfl
  | cons b st' ih =>
    cases st' with
    | nil => rfl
    | cons a rest =>
      rw [dPop, gpop]
      by_cases h : (b - a).cross (p - a) < EPS α
      · simp [dBad, h, ih]
      · simp [dBad, h]

theorem gpop_ne_nil (bad : Point α → Point α → Point α → Bool) (p : Point α) :
    ∀ st, st ≠ [] → gpop bad p st ≠ [] := by
  intro st
  induction st with
  | nil => simp
  | cons b st' ih =>
    cases st' with
    | nil => intro _h; simp [gpop]
    | cons a rest =>
      intro _h
      rw [gpop]
      split
      · exact ih (by simp)
      · simp

theorem gpop_getLast? (bad : Point α → Point α → Point α → Bool) (p : Point α) :
    ∀ st, st ≠ [] → (gpop bad p st).getLast? = st.getLast? := by
  intro st
  induction st with
  | nil => simp
  | cons b st' ih =>
    cases st' with
    | nil => intro _h; simp [gpop]
    | cons a rest =>
      intro _h
      rw [gpop]
      split
      · rw [ih (by simp), List.getLast?_cons_cons]
      · rfl

theorem gpop_exit (bad : Point α → Point α → Point α → Bool) (p : Point α) :
    ∀ st b a rest, gpop bad p st = b :: a :: rest → bad a b p = false := by
  intro st
  induction st with
  | nil => intro b a rest h; simp [gpop] at h
  | cons x st' ih =>
    cases st' with
    | nil => intro b a rest h; simp [gpop] at h
    | cons y rest' =>
      intro b a rest h
      rw [gpop] at h
      split at h
      · exact ih b a rest h
      · next hbad =>
        injection h with h1 h2
        injection h2 with h3 h4
        subst h1
        subst h3
        simpa using hbad

theorem gbuild_ne_nil (bad : Point α → Point α → Point α → Bool) :
    ∀ ps st, st ≠ [] ∨ ps ≠ [] → gbuild bad st ps ≠ [] := by
  intro ps
  induction ps with
  | nil =>
    intro st h
    rcases h with h | h
    · simpa [gbuild] using h
    · simp at h
  | cons p ps' ih =>
    intro st _h
    rw [gbuild]
    exact ih _ (Or.inl (by simp))

theorem gbuild_getLast? (bad : Point α → Point α → Point α → Bool) :
    ∀ ps st, st ≠ [] → (gbuild bad st ps).getLast? = st.getLast? := by
  intro ps
  induction ps with
  | nil => intro st _h; rfl
  | cons p ps' ih =>
    intro st h
    rw [gbuild, ih _ (by simp)]
    have h2 := gpop_ne_nil bad p st h
    cases hg : gpop bad p st with
    | nil => exact absurd hg h2
    | cons y ys =>
      rw [List.getLast?_cons_cons, ← hg, gpop_getLast? bad p st h]

theorem gbuild_head? (bad : Point α → Point α → Point α → Bool) :
    ∀ ps st, ps ≠ [] → (gbuild bad st ps).head? = ps.getLast? := by
  intro ps
  induction ps with
  | nil => simp
  | cons p ps' ih =>
    intro st _h
    cases ps' with
    | nil => simp [gbuild]
    | cons q ps'' =>
      rw [gbuild, ih _ (by simp), List.getLast?_cons_cons]

theorem gbuild_two_le_length (bad : Point α → Point α → Point α → Bool) :
    ∀ ps st, st ≠ [] → ps ≠ [] → 2 ≤ (gbuild bad st ps).length := by
  intro ps
  induction ps with
  | nil => simp
  | cons p ps' ih =>
    intro st h _h
    cases ps' with
    | nil =>
      rw [gbuild, gbuild]
      have := gpop_ne_nil bad p st h
      simp only [List.length_cons]
      have h1 : 1 ≤ (gpop bad p st).length := List.length_pos.mpr this
      omega
    | cons q ps'' => exact ih _ (by simp) (by simp)

/-! Lemmas about the chain-turn predicate `good3`. -/

theorem good3_cons_iff (T : Point α → Point α → Point α → Prop) (x : Point α)
    (l : List (Point α)) :
    good3 T (x :: l) ↔
      good3 T l ∧ (∀ b c, l.take 2 = [b, c] → T x b c) := by
  cases l with
  | nil => simp [good3]
  | cons b l' =>
    cases l' with
    | nil => simp [good3]
    | cons c rest =>
      show T x b c ∧ good3 T (b :: c :: rest) ↔ _
      constructor
      · rintro ⟨ht, hg⟩
        refine ⟨hg, fun b' c' h => ?_⟩
        simp only [List.take_succ_cons, List.take_zero, List.cons.injEq] at h
        obtain ⟨rfl, rfl, -⟩ := h
        exact ht
      · rintro ⟨hg, hcond⟩
        exact ⟨hcond b c (by simp), hg⟩

theorem take2_dropLast : ∀ (l : List (Point α)) (b c : Point α),
    l.dropLast.take 2 = [b, c] → l.take 2 = [b, c] := by
  intro l
  match l with
  | [] => simp
  | [a] => simp
  | [a, b'] => intro b c h; simp at h
  | a :: b' :: c' :: rest =>
    intro b c h
    simp only [List.dropLast_cons₂, List.take_succ_cons, List.take_zero,
      List.cons.injEq, and_true] at h ⊢
    exact h

theorem good3_dropLast (T : Point α → Point α → Point α → Prop) :
    ∀ l, good3 T l → good3 T l.dropLast := by
  intro l
  induction l with
  | nil => simp
  | cons x l' ih =>
    intro h
    cases hl : l' with
    | nil => simp [good3]
    | cons y ys =>
      subst hl
      rw [List.dropLast_cons₂]
      rw [good3_cons_iff] at h ⊢
      exact ⟨ih h.1, fun b c hbc => h.2 b c (take2_dropLast _ b c hbc)⟩

theorem good3_append_last (T : Point α → Point α → Point α → Prop)
    (p : Point α) : ∀ xs, good3 T xs →
    (∀ ys a b, xs = ys ++ [a, b] → T a b p) → good3 T (xs ++ [p]) := by
  intro xs
  induction xs with
  | nil => intro _ _; simp [good3]
  | cons x xs' ih =>
    intro h hend
    rw [List.cons_append, good3_cons_iff]
    constructor
    · refine ih ((good3_cons_iff T x xs').mp h).1 fun ys a b hys => ?_
      exact hend (x :: ys) a b (by rw [hys]; rfl)
    · intro b c hbc
      cases xs' with
      | nil => simp at hbc
      | cons b0 xs'' =>
        cases xs'' with
        | nil =>
          simp only [List.cons_append, List.nil_append, List.take_succ_cons,
            List.take_zero, List.cons.injEq] at hbc
          obtain ⟨rfl, rfl, -⟩ := hbc
          exact hend [] x b0 rfl
        | cons c0 rest =>
          simp only [List.cons_append, List.take_succ_cons, List.take_zero,
            List.cons.injEq] at hbc
          obtain ⟨rfl, rfl, -⟩ := hbc
          exact ((good3_cons_iff T x _).mp h).2 b0 c0 (by simp)

theorem gpop_good (bad : Point α → Point α → Point α → Bool)
    (T : Point α → Point α → Point α → Prop) (p : Point α) :
    ∀ st, good3 T st.reverse → good3 T (gpop bad p st).reverse := by
  intro st
  induction st with
  | nil => simp [gpop]
  | cons b st' ih =>
    cases st' with
    | nil => intro h; simpa [gpop] using h
    | cons a rest =>
      intro h
      rw [gpop]
      split
      · apply ih
        have h2 := good3_dropLast T _ h
        rwa [List.reverse_cons, List.dropLast_concat] at h2
      · exact h

theorem gbuild_good (bad : Point α → Point α → Point α → Bool)
    (T : Point α → Point α → Point α → Prop)
    (hbad : ∀ a b c, bad a b c = false ↔ T a b c) :
    ∀ ps st, good3 T st.reverse → good3 T (gbuild bad st ps).reverse := by
  intro ps
  induction ps with
  | nil => intro st h; exact h
  | cons p ps' ih =>
    intro st h
    rw [gbuild]
    apply ih
    rw [List.reverse_cons]
    refine good3_append_last T p _ (gpop_good bad T p st h) fun ys a b hys => ?_
    have hst : gpop bad p st = b :: a :: ys.reverse := by
      have h2 := congrArg List.reverse hys
      rwa [List.reverse_reverse, List.reverse_append, List.reverse_cons,
        List.reverse_singleton] at h2
    exact (hbad a b p).mp (gpop_exit bad p st b a ys.reverse hst)

theorem uBad_false_iff (a b c : Point α) : uBad a b c = false ↔ Tu a b c := by
  simp [uBad, Tu, not_lt]

theorem dBad_false_iff (a b c : Point α) : dBad a b c = false ↔ Td a b c := by
  simp [dBad, Td, not_lt]

theorem uChainOk_iff : ∀ l : List (Point α),
    uChainOk l = true ↔ good3 (Tu (α := α)) l := by
  intro l
  induction l with
  | nil => simp [uChainOk, good3]
  | cons a l' ih =>
    cases l' with
    | nil => simp [uChainOk, good3]
    | cons b l'' =>
      cases l'' with
      | nil => simp [uChainOk, good3]
      | cons c rest =>
        rw [uChainOk, show good3 (Tu (α := α)) (a :: b :: c :: rest) =
          (Tu a b c ∧ good3 (Tu (α := α)) (b :: c :: rest)) from rfl]
        simp [Tu, Bool.and_eq_true, decide_eq_true_eq, ih]

theorem dChainOk_iff : ∀ l : List (Point α),
    dChainOk l = true ↔ good3 (Td (α := α)) l := by
  intro l
  induction l with
  | nil => simp [dChainOk, good3]
  | cons a l' ih =>
    cases l' with
    | nil => simp [dChainOk, good3]
    | cons b l'' =>
      cases l'' with
      | nil => simp [dChainOk, good3]
      | cons c rest =>
        rw [dChainOk, show good3 (Td (α := α)) (a :: b :: c :: rest) =
          (Td a b c ∧ good3 (Td (α := α)) (b :: c :: rest)) from rfl]
        simp [Td, Bool.and_eq_true, decide_eq_true_eq, ih]

/-! Lemmas about the sort model. -/

theorem rinsert_perm (cmp : Point α → Point α → Ordering) (x : Point α) :
    ∀ l : List (Point α), (rinsert cmp x l).Perm (x :: l) := by
  intro l
  induction l with
  | nil => simp [rinsert]
  | cons y ys ih =>
    rw [rinsert]
    split
    · exact (ih.cons y).trans (List.Perm.swap x y ys)
    · exact List.Perm.refl _

theorem sortAux_perm (cmp : Point α → Point α → Ordering) :
    ∀ (l acc : List (Point α)),
      (l.foldl (fun acc x => rinsert cmp x acc) acc).Perm (acc ++ l) := by
  intro l
  induction l with
  | nil => simp
  | cons x l' ih =>
    intro acc
    rw [List.foldl_cons]
    refine (ih _).trans ?_
    refine List.Perm.trans ?_ List.perm_middle.symm
    exact ((rinsert_perm cmp x acc).append_right l')

theorem sortPts_perm (cmp : Point α → Point α → Ordering)
    (l : List (Point α)) : (sortPts cmp l).Perm l := by
  unfold sortPts
  refine (List.reverse_perm _).trans ?_
  simpa using sortAux_perm cmp l []

theorem sortPts_length (cmp : Point α → Point α → Ordering)
    (l : List (Point α)) : (sortPts cmp l).length = l.length :=
  (sortPts_perm cmp l).length_eq

theorem hull_fold_eq : ∀ (ps : List (Point α)) (u d : List (Point α)),
    ps.foldl hullStep (u, d) = (gbuild uBad u ps, gbuild dBad d ps) := by
  intro ps
  induction ps with
  | nil => intro u d; rfl
  | cons p ps' ih =>
    intro u d
    rw [List.foldl_cons,
      show hullStep (u, d) p = (p :: gpop uBad p u, p :: gpop dBad p d) from by
        rw [hullStep, uPop_eq_gpop, dPop_eq_gpop],
      gbuild, gbuild]
    exact ih _ _

theorem get_convex_hull_eq (pts : List (Point α)) :
    ConvexHull.get_convex_hull pts =
      ⟨(gbuild uBad [] (sortPts ConvexHull.pt_cmp pts)).reverse,
       (gbuild dBad [] (sortPts ConvexHull.pt_cmp pts)).reverse⟩ := by
  have h : ConvexHull.get_convex_hull pts =
      ⟨((sortPts ConvexHull.pt_cmp pts).foldl hullStep ([], [])).1.reverse,
       ((sortPts ConvexHull.pt_cmp pts).foldl hullStep ([], [])).2.reverse⟩ := rfl
  rw [h, hull_fold_eq]

theorem gbuild_nil_cons (bad : Point α → Point α → Point α → Bool)
    (p0 : Point α) (ps : List (Point α)) :
    gbuild bad [] (p0 :: ps) = gbuild bad [p0] ps := rfl

theorem valid?_some_true (u d : List (Point α)) (hu : 2 ≤ u.length)
    (hd : 2 ≤ d.length) (hh : u.head? = d.head?) (hl : u.getLast? = d.getLast?)
    (hcu : uChainOk u = true) (hcd : dChainOk d = true) :
    ConvexHull.valid? ⟨u, d⟩ = some true := by
  rcases u with _ | ⟨u0, _ | ⟨u1, utl⟩⟩
  · simp at hu
  · simp at hu
  rcases d with _ | ⟨d0, _ | ⟨d1, dtl⟩⟩
  · simp at hd
  · simp at hd
  simp only [List.head?_cons, Option.some.injEq] at hh
  subst hh
  have hgl : (u0 :: u1 :: utl).getLastD u0 = (u0 :: d1 :: dtl).getLastD u0 := by
    rw [List.getLastD_eq_getLast?, List.getLastD_eq_getLast?, hl]
  simp only [ConvexHull.valid?]
  rw [hgl]
  simp [Point.peq_refl, hcu, hcd]

/-! Claim theorems for the hull chain endpoints and the self-check. -/

/-- C3 counterexample: the shared chain endpoints need not be the
comparator-extremal input points. On the input
`[(18e-10, 0), (9e-10, 0), (0, 0)]` (adjacent points compare `Equal`, so the
stable sort leaves the order unchanged) both chains start at `(18e-10, 0)`
and end at `(0, 0)`; but the first element compares `Greater` to the input
point `(0,0)`, so it is not a lexicographically minimal input point, and the
last compares `Less` to `(18e-10, 0)`, so it is not maximal. -/
theorem hull_endpoints_not_extremal_cex :
    (ConvexHull.get_convex_hull
      [(⟨18/10^10, 0⟩ : Point ℚ), ⟨9/10^10, 0⟩, ⟨0, 0⟩]).u_hull =
      [⟨18/10^10, 0⟩, ⟨0, 0⟩] ∧
    (ConvexHull.get_convex_hull
      [(⟨18/10^10, 0⟩ : Point ℚ), ⟨9/10^10, 0⟩, ⟨0, 0⟩]).d_hull =
      [⟨18/10^10, 0⟩, ⟨0, 0⟩] ∧
    ConvexHull.pt_cmp (⟨18/10^10, 0⟩ : Point ℚ) ⟨0, 0⟩ = Ordering.gt ∧
    ConvexHull.pt_cmp (⟨0, 0⟩ : Point ℚ) ⟨18/10^10, 0⟩ = Ordering.lt := by
  refine ⟨?_, ?_, ?_, ?_⟩ <;>
    norm_num [ord_lt_eq_gt_false, ord_eq_eq_gt_false,
      ConvexHull.get_convex_hull, sortPts, List.foldl, rinsert,
      ConvexHull.pt_cmp, eq_f64, EPS, hullStep, uPop, dPop, Point.sub_def,
      Point.cross, abs_lt, le_abs, Point.mk.injEq]

/-- C3 (amended): for every non-empty input, `u_hull` and `d_hull` share
their first element (the first point of the comparator-sorted sequence) and
their last element (the last point of the sorted sequence), and both are
input points; but because the comparator is not transitive the shared first
(last) element need not be comparator-minimal (-maximal) among the inputs. -/
theorem hull_chains_share_endpoints_in_input :
    ∀ (β : Type) [LinearOrderedField β] (pts : List (Point β)), pts ≠ [] →
      ∃ f t, f ∈ pts ∧ t ∈ pts ∧
        (ConvexHull.get_convex_hull pts).u_hull.head? = some f ∧
        (ConvexHull.get_convex_hull pts).d_hull.head? = some f ∧
        (ConvexHull.get_convex_hull pts).u_hull.getLast? = some t ∧
        (ConvexHull.get_convex_hull pts).d_hull.getLast? = some t := by
  intro β _ pts hne
  have hperm := sortPts_perm (ConvexHull.pt_cmp (α := β)) pts
  have hsne : sortPts ConvexHull.pt_cmp pts ≠ [] := by
    intro h0
    rw [h0] at hperm
    exact hne (hperm.symm.eq_nil)
  obtain ⟨p0, s', hs⟩ : ∃ p0 s', sortPts ConvexHull.pt_cmp pts = p0 :: s' := by
    cases hc : sortPts ConvexHull.pt_cmp pts with
    | nil => exact absurd hc hsne
    | cons a l => exact ⟨a, l, rfl⟩
  rw [hs] at hperm
  obtain ⟨t, ht⟩ : ∃ t, (p0 :: s').getLast? = some t :=
    ⟨(p0 :: s').getLast (by simp), List.getLast?_eq_getLast_of_ne_nil (by simp)⟩
  refine ⟨p0, t, hperm.mem_iff.mp (by simp), hperm.mem_iff.mp ?_, ?_, ?_, ?_, ?_⟩
  · have hx : t ∈ (p0 :: s').getLast? := by rw [ht]; rfl
    obtain ⟨hne2, heq⟩ := List.mem_getLast?_eq_getLast hx
    rw [heq]
    exact List.getLast_mem hne2
  all_goals rw [get_convex_hull_eq, hs]
  · show (gbuild uBad [] (p0 :: s')).reverse.head? = some p0
    rw [List.head?_reverse, gbuild_nil_cons,
      gbuild_getLast? uBad s' [p0] (by simp)]
    rfl
  · show (gbuild dBad [] (p0 :: s')).reverse.head? = some p0
    rw [List.head?_reverse, gbuild_nil_cons,
      gbuild_getLast? dBad s' [p0] (by simp)]
    rfl
  · show (gbuild uBad [] (p0 :: s')).reverse.getLast? = some t
    rw [List.getLast?_reverse, gbuild_nil_cons]
    cases s' with
    | nil =>
      have hpt : p0 = t := by simpa using ht
      subst hpt
      rfl
    | cons q s'' =>
      rw [gbuild_head? uBad (q :: s'') [p0] (by simp)]
      rw [List.getLast?_cons_cons] at ht
      exact ht
  · show (gbuild dBad [] (p0 :: s')).reverse.getLast? = some t
    rw [List.getLast?_reverse, gbuild_nil_cons]
    cases s' with
    | nil =>
      have hpt : p0 = t := by simpa using ht
      subst hpt
      rfl
    | cons q s'' =>
      rw [gbuild_head? dBad (q :: s'') [p0] (by simp)]
      rw [List.getLast?_cons_cons] at ht
      exact ht

/-- Witness for the C3 amended theorem at the single-point input. -/
theorem hull_chains_share_endpoints_in_input_witness :
    ∃ f t, f ∈ [(⟨0, 0⟩ : Point ℚ)] ∧ t ∈ [(⟨0, 0⟩ : Point ℚ)] ∧
      (ConvexHull.get_convex_hull [(⟨0, 0⟩ : Point ℚ)]).u_hull.head? = some f ∧
      (ConvexHull.get_convex_hull [(⟨0, 0⟩ : Point ℚ)]).d_hull.head? = some f ∧
      (ConvexHull.get_convex_hull [(⟨0, 0⟩ : Point ℚ)]).u_hull.getLast? = some t ∧
      (ConvexHull.get_convex_hull [(⟨0, 0⟩ : Point ℚ)]).d_hull.getLast? = some t :=
  hull_chains_share_endpoints_in_input ℚ [⟨0, 0⟩] (by simp)

/-- C10: every hull built by `get_convex_hull` from at least two input
points passes the `valid()` self-check: the chains share both endpoints, and
every consecutive triple of `u_hull` (resp. `d_hull`) has cross product at
most `-EPS` (resp. at least `EPS`), because each point was pushed only after
the pop loop had restored that exact invariant. -/
theorem hull_passes_valid_check :
    ∀ (β : Type) [LinearOrderedField β] (pts : List (Point β)),
      2 ≤ pts.length →
      ConvexHull.valid? (ConvexHull.get_convex_hull pts) = some true := by
  intro β _ pts hlen
  have hslen : 2 ≤ (sortPts ConvexHull.pt_cmp pts).length := by
    rw [sortPts_length]
    exact hlen
  obtain ⟨p0, p1, s'', hs⟩ : ∃ p0 p1 s'',
      sortPts ConvexHull.pt_cmp pts = p0 :: p1 :: s'' := by
    cases hc : sortPts ConvexHull.pt_cmp pts with
    | nil => rw [hc] at hslen; simp at hslen
    | cons a l =>
      cases l with
      | nil => rw [hc] at hslen; simp at hslen
      | cons b l' => exact ⟨a, b, l', rfl⟩
  rw [get_convex_hull_eq, hs]
  apply valid?_some_true
  · rw [List.length_reverse, gbuild_nil_cons]
    exact gbuild_two_le_length uBad (p1 :: s'') [p0] (by simp) (by simp)
  · rw [List.length_reverse, gbuild_nil_cons]
    exact gbuild_two_le_length dBad (p1 :: s'') [p0] (by simp) (by simp)
  · rw [List.head?_reverse, List.head?_reverse, gbuild_nil_cons,
      gbuild_nil_cons, gbuild_getLast? uBad (p1 :: s'') [p0] (by simp),
      gbuild_getLast? dBad (p1 :: s'') [p0] (by simp)]
  · rw [List.getLast?_reverse, List.getLast?_reverse, gbuild_nil_cons,
      gbuild_nil_cons, gbuild_head? uBad (p1 :: s'') [p0] (by simp),
      gbuild_head? dBad (p1 :: s'') [p0] (by simp)]
  · exact (uChainOk_iff _).mpr
      (gbuild_good uBad Tu uBad_false_iff (p0 :: p1 :: s'') [] (by simp [good3]))
  · exact (dChainOk_iff _).mpr
      (gbuild_good dBad Td dBad_false_iff (p0 :: p1 :: s'') [] (by simp [good3]))

/-- Witness for C10 at a concrete two-point input. -/
theorem hull_passes_valid_check_witness :
    ConvexHull.valid? (ConvexHull.get_convex_hull
      [(⟨0, 0⟩ : Point ℚ), ⟨1, 0⟩]) = some true :=
  hull_passes_valid_check ℚ [⟨0, 0⟩, ⟨1, 0⟩] (by norm_num)

/-! Claim theorems for concrete convex hull scenarios. -/

/-- C4: on the input `{(0,0), (1,0), (0,1), (1,1), (0.5,0.5)}` the hull's
`area()` is exactly `1` (hence within `EPS` of `1.0`) and `get_points()`
returns exactly `[(0,0), (1,0), (1,1), (0,1)]`: counter-clockwise, the
interior point excluded, each extreme point exactly once. -/
theorem hull_scenario1_area_and_points :
    (∃ s : ℚ, (ConvexHull.get_convex_hull
        [(⟨0, 0⟩ : Point ℚ), ⟨1, 0⟩, ⟨0, 1⟩, ⟨1, 1⟩, ⟨1/2, 1/2⟩]).area? = some s ∧
      |s - 1| < EPS ℚ) ∧
    (ConvexHull.get_convex_hull
        [(⟨0, 0⟩ : Point ℚ), ⟨1, 0⟩, ⟨0, 1⟩, ⟨1, 1⟩, ⟨1/2, 1/2⟩]).get_points =
      [⟨0, 0⟩, ⟨1, 0⟩, ⟨1, 1⟩, ⟨0, 1⟩] := by
  constructor
  · refine ⟨1, ?_, by norm_num [EPS]⟩
    norm_num [ord_lt_eq_gt_false, ord_eq_eq_gt_false,
      ConvexHull.get_convex_hull, sortPts, List.foldl, rinsert,
      ConvexHull.pt_cmp, eq_f64, EPS, hullStep, uPop, dPop, Point.sub_def,
      Point.cross, abs_lt, ConvexHull.area?, triSum]
  · norm_num [ord_lt_eq_gt_false, ord_eq_eq_gt_false,
      ConvexHull.get_convex_hull, sortPts, List.foldl, rinsert,
      ConvexHull.pt_cmp, eq_f64, EPS, hullStep, uPop, dPop, Point.sub_def,
      Point.cross, abs_lt, ConvexHull.get_points, Point.mk.injEq]

/-- C1: evaluation of `get_convex_hull` at the failing input
`[(0,0), (0.1, 6e-9), (0.2, 3e-9), (0.3, 0)]`. The two middle points are
evicted (each pop's cross product is `-9e-10 > -EPS`), leaving the degenerate
hull segment from `(0,0)` to `(0.3,0)`; yet the input point `(0.1, 6e-9)`
is at distance `6e-9 = 6·EPS` from every point `(0,0) + t·(0.3,0)` of that
hull, so it does not lie on or inside the hull boundary within `EPS`. -/
theorem hull_containment_violated_at_input :
    (ConvexHull.get_convex_hull
        [(⟨0, 0⟩ : Point ℚ), ⟨1/10, 6/10^9⟩, ⟨2/10, 3/10^9⟩, ⟨3/10, 0⟩]).u_hull =
      [⟨0, 0⟩, ⟨3/10, 0⟩] ∧
    (ConvexHull.get_convex_hull
        [(⟨0, 0⟩ : Point ℚ), ⟨1/10, 6/10^9⟩, ⟨2/10, 3/10^9⟩, ⟨3/10, 0⟩]).d_hull =
      [⟨0, 0⟩, ⟨3/10, 0⟩] ∧
    (∀ t : ℚ, 0 ≤ t → t ≤ 1 →
      EPS ℚ * EPS ℚ <
        ((⟨1/10, 6/10^9⟩ : Point ℚ) -
          ((⟨0, 0⟩ : Point ℚ) + (Point.smul ⟨3/10, 0⟩ t))).sqrdis) := by
  refine ⟨?_, ?_, ?_⟩
  · norm_num [ord_lt_eq_gt_false, ord_eq_eq_gt_false,
      ConvexHull.get_convex_hull, sortPts, List.foldl, rinsert,
      ConvexHull.pt_cmp, eq_f64, EPS, hullStep, uPop, dPop, Point.sub_def,
      Point.cross, abs_lt, Point.mk.injEq]
  · norm_num [ord_lt_eq_gt_false, ord_eq_eq_gt_false,
      ConvexHull.get_convex_hull, sortPts, List.foldl, rinsert,
      ConvexHull.pt_cmp, eq_f64, EPS, hullStep, uPop, dPop, Point.sub_def,
      Point.cross, abs_lt, Point.mk.injEq]
  · intro t ht0 ht1
    simp only [EPS, Point.sub_def, Point.add_def, Point.smul, Point.sqrdis,
      Point.dot]
    nlinarith [sq_nonneg (1/10 - 3/10 * t)]

/-- Witness for the universally quantified distance conjunct of the C1
evaluation theorem, at the hull point with parameter `t = 0`. -/
theorem hull_containment_violated_at_input_witness :
    EPS ℚ * EPS ℚ <
      ((⟨1/10, 6/10^9⟩ : Point ℚ) -
        ((⟨0, 0⟩ : Point ℚ) + (Point.smul ⟨3/10, 0⟩ 0))).sqrdis :=
  hull_containment_violated_at_input.2.2 0 (by norm_num) (by norm_num)

/-- C9 counterexample: `valid()` and `area()` are not total. On the hull
`ConvexHull::new(vec![], vec![])` both operations panic (index out of
bounds / `usize` underflow), and even a hull produced by `get_convex_hull`
from a single input point makes `valid()` panic on the loop bound
`ulen - 2`. -/
theorem valid_area_panic_on_degenerate_hulls :
    ConvexHull.valid? (ConvexHull.new ([] : List (Point ℚ)) []) = none ∧
    ConvexHull.area? (ConvexHull.new ([] : List (Point ℚ)) []) = none ∧
    ConvexHull.valid? (ConvexHull.get_convex_hull [(⟨0, 0⟩ : Point ℚ)]) = none := by
  refine ⟨rfl, rfl, ?_⟩
  norm_num [ord_lt_eq_gt_false, ord_eq_eq_gt_false,
      ConvexHull.get_convex_hull, sortPts, List.foldl, rinsert,
    hullStep, uPop, dPop, ConvexHull.valid?, Point.peq, eq_f64_refl]

/-- C9 (amended): `valid()` and `area()` are total on every hull whose two
chains each hold at least two points (in particular on every hull built by
`get_convex_hull` from two or more input points); on shorter chains they
panic as the counterexample shows. -/
theorem valid_area_total_on_proper_hulls :
    ∀ (β : Type) [LinearOrderedField β] (h : ConvexHull β),
      2 ≤ h.u_hull.length → 2 ≤ h.d_hull.length →
      (ConvexHull.valid? h).isSome ∧ (ConvexHull.area? h).isSome := by
  intro β _ h hu hd
  obtain ⟨ul, dl⟩ := h
  rcases ul with _ | ⟨u0, _ | ⟨u1, utl⟩⟩
  · simp at hu
  · simp at hu
  rcases dl with _ | ⟨d0, _ | ⟨d1, dtl⟩⟩
  · simp at hd
  · simp at hd
  constructor
  · simp only [ConvexHull.valid?]
    repeat' split
    all_goals simp_all
  · simp [ConvexHull.area?]

/-- Witness for the C9 amended theorem at a concrete two-point hull. -/
theorem valid_area_total_on_proper_hulls_witness :
    (ConvexHull.valid? (ConvexHull.new [(⟨0, 0⟩ : Point ℚ), ⟨1, 0⟩]
      [⟨0, 0⟩, ⟨1, 0⟩])).isSome ∧
    (ConvexHull.area? (ConvexHull.new [(⟨0, 0⟩ : Point ℚ), ⟨1, 0⟩]
      [⟨0, 0⟩, ⟨1, 0⟩])).isSome :=
  valid_area_total_on_proper_hulls ℚ _ (by norm_num [ConvexHull.new])
    (by norm_num [ConvexHull.new])

/-! Claim theorem for circle-circle intersection. -/

/-- C7: branch-by-branch behaviour of `inter_round` for circles with
nonnegative radii. Coincident centers (under the `EPS`-tolerant point
equality) give `None`; `eq_f64(d, |r1-r2|)` gives a doubled single point on
the line through the centers at distance `r1` (respectively `r2`) from the
larger circle's center; `eq_f64(d, r1+r2)` gives a doubled single point at
distance `r1` from `c1`'s center toward `c2`; `d < |r1-r2|` or `d > r1+r2`
(beyond the tangency tolerance) gives `None`; otherwise the two points
obtained by rotating the unit center-to-center vector scaled by `r1` by
`±acos((r1² + d² - r2²)/(2·r1·d))`. -/
theorem inter_round_branch_behaviour :
    ∀ c1 c2 : Round, 0 ≤ c1.r → 0 ≤ c2.r →
      (c1.o.peq c2.o = true → c1.inter_round c2 = none) ∧
      (c1.o.peq c2.o = false →
        (eq_f64 ((c1.o - c2.o).dis) |c1.r - c2.r| = true →
          ∃ P, c1.inter_round c2 = some (P, P) ∧
            (∃ t : ℝ, P = c1.o + (c2.o - c1.o).smul t) ∧
            ((c2.r < c1.r ∧ (P - c1.o).dis = c1.r) ∨
             (c1.r < c2.r ∧ (P - c2.o).dis = c2.r))) ∧
        (eq_f64 ((c1.o - c2.o).dis) |c1.r - c2.r| = false →
          eq_f64 ((c1.o - c2.o).dis) (c1.r + c2.r) = true →
          ∃ P, c1.inter_round c2 = some (P, P) ∧ (P - c1.o).dis = c1.r ∧
            ∃ t : ℝ, 0 ≤ t ∧ P = c1.o + (c2.o - c1.o).smul t) ∧
        (eq_f64 ((c1.o - c2.o).dis) |c1.r - c2.r| = false →
          eq_f64 ((c1.o - c2.o).dis) (c1.r + c2.r) = false →
          ((c1.o - c2.o).dis < |c1.r - c2.r| ∨ c1.r + c2.r < (c1.o - c2.o).dis) →
          c1.inter_round c2 = none) ∧
        (eq_f64 ((c1.o - c2.o).dis) |c1.r - c2.r| = false →
          eq_f64 ((c1.o - c2.o).dis) (c1.r + c2.r) = false →
          ¬((c1.o - c2.o).dis < |c1.r - c2.r| ∨
            c1.r + c2.r < (c1.o - c2.o).dis) →
          c1.inter_round c2 = some
            (c1.o + ((c2.o - c1.o).normalize.smul c1.r).rot
              (Real.arccos ((c1.r * c1.r + (c1.o - c2.o).dis * (c1.o - c2.o).dis -
                c2.r * c2.r) / (2 * c1.r * (c1.o - c2.o).dis))),
             c1.o + ((c2.o - c1.o).normalize.smul c1.r).rot
              (-Real.arccos ((c1.r * c1.r + (c1.o - c2.o).dis * (c1.o - c2.o).dis -
                c2.r * c2.r) / (2 * c1.r * (c1.o - c2.o).dis)))))) := by
  intro c1 c2 hr1 hr2
  constructor
  · intro h
    simp [Round.inter_round, h]
  intro hne
  have hdeps : EPS ℝ ≤ (c1.o - c2.o).dis := peq_false_eps_le_dis _ _ hne
  have hdpos : 0 < (c1.o - c2.o).dis := lt_of_lt_of_le EPS_pos hdeps
  have hupos : 0 < (c2.o - c1.o).dis := by
    rw [dis_sub_comm]
    exact hdpos
  refine ⟨?_, ?_, ?_, ?_⟩
  · intro hti
    have hrne : c1.r ≠ c2.r := by
      intro he
      rw [he] at hti
      simp only [eq_f64, sub_self, abs_zero, sub_zero, decide_eq_true_eq] at hti
      rw [abs_of_pos hdpos] at hti
      exact absurd hti (not_lt.mpr hdeps)
    by_cases hgt : c1.r > c2.r
    · refine ⟨c1.o + (c2.o - c1.o).normalize.smul c1.r, ?_, ?_, ?_⟩
      · simp [Round.inter_round, hne, hti, hgt]
      · refine ⟨c1.r / (c2.o - c1.o).dis, ?_⟩
        unfold Point.normalize
        rw [Point.sdiv_eq_smul]
        refine Point.eq_of_coords ?_ ?_ <;>
          simp only [Point.add_x, Point.add_y, Point.smul_x, Point.smul_y,
            Point.sub_x, Point.sub_y] <;>
          ring
      · exact Or.inl ⟨hgt, by
          rw [Point.add_sub_cancel_left, Point.dis_smul,
            Point.dis_normalize _ hupos, mul_one, abs_of_nonneg hr1]⟩
    · have hlt : c1.r < c2.r := lt_of_le_of_ne (not_lt.mp hgt) hrne
      refine ⟨c2.o + (c1.o - c2.o).normalize.smul c2.r, ?_, ?_, ?_⟩
      · simp [Round.inter_round, hne, hti, hgt]
      · refine ⟨1 - c2.r / (c1.o - c2.o).dis, ?_⟩
        unfold Point.normalize
        rw [Point.sdiv_eq_smul]
        refine Point.eq_of_coords ?_ ?_ <;>
          simp only [Point.add_x, Point.add_y, Point.smul_x, Point.smul_y,
            Point.sub_x, Point.sub_y] <;>
          ring
      · exact Or.inr ⟨hlt, by
          rw [Point.add_sub_cancel_left, Point.dis_smul,
            Point.dis_normalize _ hdpos, mul_one, abs_of_nonneg hr2]⟩
  · intro hti hte
    refine ⟨c1.o + (c2.o - c1.o).normalize.smul c1.r, ?_, ?_, ?_⟩
    · simp [Round.inter_round, hne, hti, hte]
    · rw [Point.add_sub_cancel_left, Point.dis_smul,
        Point.dis_normalize _ hupos, mul_one, abs_of_nonneg hr1]
    · refine ⟨c1.r / (c2.o - c1.o).dis, div_nonneg hr1 (le_of_lt hupos), ?_⟩
      unfold Point.normalize
      rw [Point.sdiv_eq_smul]
      refine Point.eq_of_coords ?_ ?_ <;>
        simp only [Point.add_x, Point.add_y, Point.smul_x, Point.smul_y,
          Point.sub_x, Point.sub_y] <;>
        ring
  · intro h1 h2 h3
    simp [Round.inter_round, hne, h1, h2, h3]
  · intro h1 h2 h3
    simp [Round.inter_round, hne, h1, h2, h3]

/-- Witness for C7 at the externally tangent circles of radii 2 and 1 with
centers `(0,0)` and `(3,0)`: the external-tangency branch applies and yields
a doubled point at distance 2 from the first center, on the segment toward
the second. -/
theorem inter_round_branch_behaviour_witness :
    ∃ P, (Round.new (⟨0, 0⟩ : Point ℝ) 2).inter_round (Round.new ⟨3, 0⟩ 1) =
        some (P, P) ∧
      (P - (⟨0, 0⟩ : Point ℝ)).dis = 2 ∧
      ∃ t : ℝ, 0 ≤ t ∧
        P = (⟨0, 0⟩ : Point ℝ) + ((⟨3, 0⟩ : Point ℝ) - ⟨0, 0⟩).smul t := by
  have hdis : ((⟨0, 0⟩ : Point ℝ) - ⟨3, 0⟩).dis = 3 := by
    rw [Point.dis_eq]
    have h9 : ((⟨0, 0⟩ : Point ℝ) - ⟨3, 0⟩).x ^ 2 +
        ((⟨0, 0⟩ : Point ℝ) - ⟨3, 0⟩).y ^ 2 = 9 := by
      simp only [Point.sub_x, Point.sub_y]
      norm_num
    rw [h9, show (9 : ℝ) = 3 ^ 2 by norm_num,
      Real.sqrt_sq (by norm_num : (0 : ℝ) ≤ 3)]
  have hne : (⟨0, 0⟩ : Point ℝ).peq ⟨3, 0⟩ = false := by
    simp only [Point.peq, eq_f64, EPS, Bool.and_eq_false_iff,
      decide_eq_false_iff_not, not_lt]
    left
    norm_num
  have h := inter_round_branch_behaviour (Round.new ⟨0, 0⟩ 2)
    (Round.new ⟨3, 0⟩ 1) (by norm_num [Round.new]) (by norm_num [Round.new])
  have hti : eq_f64 (((⟨0, 0⟩ : Point ℝ) - ⟨3, 0⟩).dis) |(2 : ℝ) - 1| = false := by
    rw [hdis]
    simp only [eq_f64, decide_eq_false_iff_not, not_lt, EPS]
    rw [show |(2 : ℝ) - 1| = 1 by norm_num]
    norm_num
  have hte : eq_f64 (((⟨0, 0⟩ : Point ℝ) - ⟨3, 0⟩).dis) ((2 : ℝ) + 1) = true := by
    rw [hdis, show (2 : ℝ) + 1 = 3 by norm_num]
    exact eq_f64_refl 3
  exact (h.2 hne).2.1 hti hte

end RustGeometry
